import Mathlib

/-!
Shallow embedding of `src/main.py` (mileage reimbursement calculator) and
verification of the frozen claims about it.

Modelling conventions:
* Python `str` is modelled as `String` / `List Char`; regular-expression
  character classes `\w`, `\s`, `\d` and the string methods `lower`,
  `istitle`, `isupper`, `isdigit`, `strip`, `split` are modelled over the
  ASCII character ranges (the source operates on text extracted from PDFs).
* `datetime.date` values are modelled by the `Date` structure; inside the
  matcher, where only equality and day-difference are used, a date is
  modelled by its proleptic-Gregorian ordinal (an `Int`), mirroring
  `datetime.date` equality and `(d1 - d2).days` exactly.
* Python `float` amounts are modelled as exact rationals; every amount the
  scanner produces comes from a decimal literal, and no claim depends on
  binary rounding.
* `re.finditer`/`re.findall` are modelled by explicit left-to-right,
  non-overlapping scanners.  For the concrete patterns of the source the
  regex engine's backtracking is deterministic, because the character
  classes involved (`\d`, `[/.-]`, `\s`, `\w`, month-name letters) are
  pairwise disjoint at every choice point; each `tryP…` function below
  therefore consumes each sub-pattern maximally, which is observationally
  equal to Python's leftmost match.
-/

/-- ASCII model of the regex class `\d`. -/
def isDig (c : Char) : Bool := c.isDigit

/-- ASCII model of the regex class `\w` (letters, digits, underscore). -/
def isWordChar (c : Char) : Bool := c.isAlphanum || c = '_'

/-- The date separators `[/.-]` of the numeric date patterns. -/
def isSep (c : Char) : Bool := c = '/' || c = '.' || c = '-'

/-- ASCII model of the regex class `\s` / Python `str.strip` whitespace. -/
def isPySpace (c : Char) : Bool :=
  c = ' ' || c = '\t' || c = '\n' || c = '\r' || c = '\x0b' || c = '\x0c'

/-- A word boundary `\b` holds at the end of a match ending in `\w` iff the
following character is absent or not a word character. -/
def endBOk : List Char → Bool
  | [] => true
  | c :: _ => !isWordChar c

/-- Numeric value of a digit string (as produced by `int(...)` / `strptime`). -/
def toNatL (l : List Char) : Nat := l.foldl (fun a c => a * 10 + (c.toNat - 48)) 0

/-- The `month_names` table of `parse_dates_from_text`. -/
def monthTable : List (List Char × Nat) :=
  [(['j','a','n'], 1), (['f','e','b'], 2), (['m','a','r'], 3), (['a','p','r'], 4),
   (['m','a','y'], 5), (['j','u','n'], 6), (['j','u','l'], 7), (['a','u','g'], 8),
   (['s','e','p'], 9), (['o','c','t'], 10), (['n','o','v'], 11), (['d','e','c'], 12)]

/-- Model of `s.lower()[:3]` on the ASCII fragment. -/
def lowerTake3 (l : List Char) : List Char := (l.map Char.toLower).take 3

/-- Lookup `month_names[s.lower()[:3]]` when present. -/
def monthOf (l : List Char) : Option Nat := monthTable.lookup (lowerTake3 l)

/-- A calendar date as produced by `datetime.date`. -/
structure Date where
  year : Nat
  month : Nat
  day : Nat
deriving DecidableEq, Repr

/-- Gregorian leap-year rule used by `datetime`. -/
def isLeapYear (y : Nat) : Bool := y % 4 = 0 && (y % 100 ≠ 0 || y % 400 = 0)

/-- Length of a month in the Gregorian calendar. -/
def daysInMonth (y m : Nat) : Nat :=
  if m = 2 then (if isLeapYear y then 29 else 28)
  else if m = 4 || m = 6 || m = 9 || m = 11 then 30 else 31

/-- The validity check `datetime` / `strptime` performs when constructing a
date (year within `MINYEAR..MAXYEAR`, month and day in calendar range). -/
def validDateB (d : Date) : Bool :=
  decide (1 ≤ d.year ∧ d.year ≤ 9999 ∧ 1 ≤ d.month ∧ d.month ≤ 12 ∧
          1 ≤ d.day ∧ d.day ≤ daysInMonth d.year d.month)

/-- A valid Gregorian calendar date. -/
def ValidDate (d : Date) : Prop := validDateB d = true

/-- Model of `datetime(year, month, day)` / `strptime`: a date if valid, else the
`ValueError` that the source catches and ignores. -/
def mkDate (y m d : Nat) : Option Date :=
  if validDateB ⟨y, m, d⟩ then some ⟨y, m, d⟩ else none

/-- The body of the match loop of `parse_dates_from_text`: turn the three
captured groups into a date, or `none` where the source catches
`ValueError` and continues.  All-digit groups take the numeric branch
(`YYYY-MM-DD` when the first group has four digits, else `MM/DD/YYYY`);
otherwise the month-name branches are tried in source order. -/
def interpretGroups : List Char × List Char × List Char → Option Date
  | (a, b, c) =>
    if a.all isDig && b.all isDig && c.all isDig then
      if a.length = 4 then mkDate (toNatL a) (toNatL b) (toNatL c)
      else mkDate (toNatL c) (toNatL a) (toNatL b)
    else
      match monthOf b with
      | some m => mkDate (toNatL c) m (toNatL a)
      | none =>
        match monthOf a with
        | some m => mkDate (toNatL c) m (toNatL b)
        | none => none

/-- Matcher for `\b(\d{1,2})[/.-](\d{1,2})[/.-](\d{4})\b` at the current
position (the leading `\b` is checked by the scanner).  Returns the groups
and the number of characters consumed. -/
def tryP1 (s : List Char) : Option ((List Char × List Char × List Char) × Nat) :=
  let d1 := s.takeWhile isDig
  if d1.length = 0 ∨ 2 < d1.length then none
  else
    match s.dropWhile isDig with
    | [] => none
    | c1 :: r1 =>
      if isSep c1 then
        let d2 := r1.takeWhile isDig
        if d2.length = 0 ∨ 2 < d2.length then none
        else
          match r1.dropWhile isDig with
          | [] => none
          | c2 :: r2 =>
            if isSep c2 then
              let d3 := r2.takeWhile isDig
              if d3.length = 4 && endBOk (r2.dropWhile isDig) then
                some ((d1, d2, d3), d1.length + d2.length + 6)
              else none
            else none
      else none

/-- Matcher for `\b(\d{4})[/.-](\d{1,2})[/.-](\d{1,2})\b`. -/
def tryP2 (s : List Char) : Option ((List Char × List Char × List Char) × Nat) :=
  let d1 := s.takeWhile isDig
  if d1.length = 4 then
    match s.dropWhile isDig with
    | [] => none
    | c1 :: r1 =>
      if isSep c1 then
        let d2 := r1.takeWhile isDig
        if d2.length = 0 ∨ 2 < d2.length then none
        else
          match r1.dropWhile isDig with
          | [] => none
          | c2 :: r2 =>
            if isSep c2 then
              let d3 := r2.takeWhile isDig
              if (d3.length = 1 ∨ d3.length = 2) ∧ endBOk (r2.dropWhile isDig) then
                some ((d1, d2, d3), d2.length + d3.length + 6)
              else none
            else none
      else none
  else none

/-- Matcher for `\b(\d{1,2})\s+(Jan|…|Dec)\w*\s+(\d{4})\b`. -/
def tryP3 (s : List Char) : Option ((List Char × List Char × List Char) × Nat) :=
  let d1 := s.takeWhile isDig
  if d1.length = 0 ∨ 2 < d1.length then none
  else
    let r1 := s.dropWhile isDig
    let ws1 := r1.takeWhile isPySpace
    if ws1.length = 0 then none
    else
      match r1.dropWhile isPySpace with
      | m1 :: m2 :: m3 :: r3 =>
        if (monthOf [m1, m2, m3]).isSome then
          let wr := r3.takeWhile isWordChar
          let r4 := r3.dropWhile isWordChar
          let ws2 := r4.takeWhile isPySpace
          if ws2.length = 0 then none
          else
            let r5 := r4.dropWhile isPySpace
            let d3 := r5.takeWhile isDig
            if d3.length = 4 && endBOk (r5.dropWhile isDig) then
              some ((d1, [m1, m2, m3], d3),
                    d1.length + ws1.length + 3 + wr.length + ws2.length + 4)
            else none
        else none
      | _ => none

/-- Matcher for `\b(Jan|…|Dec)\w*\s+(\d{1,2}),?\s+(\d{4})\b`. -/
def tryP4 (s : List Char) : Option ((List Char × List Char × List Char) × Nat) :=
  match s with
  | m1 :: m2 :: m3 :: r1 =>
    if (monthOf [m1, m2, m3]).isSome then
      let wr := r1.takeWhile isWordChar
      let r2 := r1.dropWhile isWordChar
      let ws1 := r2.takeWhile isPySpace
      if ws1.length = 0 then none
      else
        let r3 := r2.dropWhile isPySpace
        let d2 := r3.takeWhile isDig
        if d2.length = 0 ∨ 2 < d2.length then none
        else
          let r4 := r3.dropWhile isDig
          let (nc, r5) := match r4 with
            | ',' :: r5 => (1, r5)
            | r4 => (0, r4)
          let ws2 := r5.takeWhile isPySpace
          if ws2.length = 0 then none
          else
            let r6 := r5.dropWhile isPySpace
            let d3 := r6.takeWhile isDig
            if d3.length = 4 && endBOk (r6.dropWhile isDig) then
              some (([m1, m2, m3], d2, d3),
                    3 + wr.length + ws1.length + d2.length + nc + ws2.length + 4)
            else none
    else none
  | _ => none

/-- Model of `re.finditer` over the text for one pattern: scan left to right, at each
position whose preceding character is not a word character (all four
patterns start with `\b` followed by a word character) attempt the match;
on success emit the groups and resume after the match (whose last character
is always a digit, hence a word character), else advance one character. -/
def scanPF (tryM : List Char → Option ((List Char × List Char × List Char) × Nat)) :
    Nat → Bool → List Char → List (List Char × List Char × List Char)
  | 0, _, _ => []
  | _ + 1, _, [] => []
  | fuel + 1, prevW, c :: t =>
    match (if prevW then none else tryM (c :: t)) with
    | some (g, n) => g :: scanPF tryM fuel true (t.drop (n - 1))
    | none => scanPF tryM fuel (isWordChar c) t

/-- The scan itself; the fuel `l.length` is always sufficient because every
step of `scanPF` removes at least one character. -/
def scanP (tryM : List Char → Option ((List Char × List Char × List Char) × Nat))
    (prevW : Bool) (l : List Char) : List (List Char × List Char × List Char) :=
  scanPF tryM l.length prevW l

/-- The body of `parse_dates_from_text` on a character list: run the four patterns in
source order, interpret every match, drop the invalid ones, and remove
duplicates (`list(set(dates))`). -/
def mineDatesL (l : List Char) : List Date :=
  (((scanP tryP1 false l).filterMap interpretGroups) ++
   ((scanP tryP2 false l).filterMap interpretGroups) ++
   ((scanP tryP3 false l).filterMap interpretGroups) ++
   ((scanP tryP4 false l).filterMap interpretGroups)).dedup

/-- The function `parse_dates_from_text` (the Date Miner). -/
def parse_dates_from_text (text : String) : List Date := mineDatesL text.toList

/-- Python `str.strip()` (ASCII whitespace). -/
def pyStrip (l : List Char) : List Char :=
  ((l.dropWhile isPySpace).reverse.dropWhile isPySpace).reverse

/-- Python `text.split('\n')` (keeps empty pieces). -/
def splitNl : List Char → List (List Char)
  | [] => [[]]
  | c :: t =>
    if c = '\n' then [] :: splitNl t
    else
      match splitNl t with
      | [] => [[c]]
      | h :: r => (c :: h) :: r

/-- Does `needle` occur at the head of the second list? -/
def startsWithL : List Char → List Char → Bool
  | [], _ => true
  | _ :: _, [] => false
  | a :: t1, b :: t2 => a == b && startsWithL t1 t2

/-- Python substring containment `needle in hay`. -/
def containsSub (needle : List Char) : List Char → Bool
  | [] => needle.isEmpty
  | b :: t => startsWithL needle (b :: t) || containsSub needle t

/-- The `location_keywords` list of `parse_parking_receipts`. -/
def locationKeywords : List (List Char) :=
  ["lot", "garage", "parking", "meter", "street", "ave", "avenue", "blvd",
   "boulevard", "rd", "road"].map String.toList

/-- Model of `any(keyword in line.lower().strip() for keyword in location_keywords)`. -/
def isLocationCandidate (line : List Char) : Bool :=
  locationKeywords.any (fun k => containsSub k (pyStrip (line.map Char.toLower)))

/-- The characters the location cleaner keeps, i.e. the class `[\w\s\-\.]`. -/
def allowedLocChar (c : Char) : Bool :=
  isWordChar c || isPySpace c || c = '-' || c = '.'

/-- Model of `re.sub(r'[^\w\s\-\.]', ' ', line).strip()`: every character outside the
class is replaced by a space, then surrounding whitespace is stripped. -/
def cleanLine (line : List Char) : String :=
  String.mk (pyStrip (line.map (fun c => if allowedLocChar c then c else ' ')))

/-- The location-collecting loop of `parse_parking_receipts`, before the
final cap of 10. -/
def locationsFullOf (text : String) : List String :=
  (splitNl text.toList).foldl
    (fun acc line =>
      if isLocationCandidate line then
        let c := cleanLine line
        if 3 < c.length then acc ++ [c] else acc
      else acc) []

/-- Value of a matched amount token `\d+(\.\d*)?` (Python `float(...)`,
modelled exactly: integer part plus fraction digits over a power of ten). -/
def amtVal (ip fp : List Char) : Rat :=
  mkRat (toNatL ip * 10 ^ fp.length + toNatL fp) (10 ^ fp.length)

/-- Matcher for `\d+\.?\d*` at the current position. -/
def tryNum (s : List Char) : Option (Rat × Nat) :=
  let ip := s.takeWhile isDig
  if ip.isEmpty then none
  else
    match s.dropWhile isDig with
    | '.' :: r2 =>
      let fp := r2.takeWhile isDig
      some (amtVal ip fp, ip.length + 1 + fp.length)
    | _ => some (amtVal ip [], ip.length)

/-- Matcher for `\$?(\d+\.?\d*)` at the current position. -/
def tryAmount : List Char → Option (Rat × Nat)
  | '$' :: t =>
    match tryNum t with
    | some (q, n) => some (q, n + 1)
    | none => none
  | s => tryNum s

/-- Fuel-indexed scan for the amount pattern (see `scanPF`). -/
def scanAmountsF : Nat → List Char → List Rat
  | 0, _ => []
  | _ + 1, [] => []
  | fuel + 1, c :: t =>
    match tryAmount (c :: t) with
    | some (q, n) => q :: scanAmountsF fuel (t.drop (n - 1))
    | none => scanAmountsF fuel t

/-- Model of `re.findall(r'\$?(\d+\.?\d*)', text)` with `float` conversion. -/
def scanAmounts (l : List Char) : List Rat := scanAmountsF l.length l

/-- The dictionary returned by `parse_parking_receipts`. -/
structure ReceiptRecord where
  dates : List Date
  locations : List String
  amounts : List Rat
deriving DecidableEq, Repr

/-- The function `parse_parking_receipts`. -/
def parse_parking_receipts (text : String) : ReceiptRecord :=
  { dates := mineDatesL text.toList
    locations := (locationsFullOf text).take 10
    amounts := (scanAmounts text.toList).take 10 }

/-- Core of Python `str.istitle` (ASCII): uppercase letters may only follow
uncased characters, lowercase letters may only follow cased ones, and at
least one cased character must occur. -/
def pyIstitleGo : List Char → Bool → Bool → Bool
  | [], _, seen => seen
  | c :: t, prevCased, seen =>
    if c.isUpper then (if prevCased then false else pyIstitleGo t true true)
    else if c.isLower then (if prevCased then pyIstitleGo t true true else false)
    else pyIstitleGo t false seen

/-- Python `str.istitle` (ASCII). -/
def pyIstitle (w : List Char) : Bool := pyIstitleGo w false false

/-- Python `str.isupper` (ASCII): no lowercase letter and at least one
uppercase letter. -/
def pyIsupper (w : List Char) : Bool := w.any (·.isUpper) && !(w.any (·.isLower))

/-- Python `str.isdigit` (ASCII). -/
def pyIsdigit (w : List Char) : Bool := !w.isEmpty && w.all isDig

/-- Model of `re.sub(r'[^\w]', '', word.lower())`. -/
def cleanWordStr (w : List Char) : String :=
  String.mk ((w.map Char.toLower).filter isWordChar)

/-- The `exclude_words` stoplist of `parse_time_report`. -/
def excludeWords : List String :=
  ["total", "hours", "time", "date", "project", "task", "work", "report",
   "summary", "billing", "invoice", "amount", "cost", "rate", "page",
   "description", "notes", "client", "company", "contact", "phone",
   "email", "address", "city", "state", "zip", "country"]

/-- The per-word filter of the client-extraction loop. -/
def keepWord (w : List Char) : Bool :=
  decide (1 < w.length) && (pyIstitle w || pyIsupper w) &&
    !(excludeWords.contains (cleanWordStr w)) && !pyIsdigit w

/-- Model of `re.match(r'^\d+[/.-]\d+[/.-]\d+', line)` viewed as a Bool. -/
def startsNumDate (l : List Char) : Bool :=
  !(l.takeWhile isDig).isEmpty &&
    (match l.dropWhile isDig with
     | c1 :: t1 =>
       isSep c1 &&
         (!(t1.takeWhile isDig).isEmpty &&
           (match t1.dropWhile isDig with
            | c2 :: t2 => isSep c2 && !(t2.takeWhile isDig).isEmpty
            | [] => false))
     | [] => false)

/-- Model of `re.search(r'\$\d+', line)` viewed as a Bool. -/
def containsDollarDigit : List Char → Bool
  | [] => false
  | [_] => false
  | a :: b :: t => (a == '$' && isDig b) || containsDollarDigit (b :: t)

/-- Python `str.split()` with no separator: split on whitespace runs,
discarding empty pieces (whitespace characters open a new group, other
characters extend the current group, empty groups are dropped). -/
def pySplitGo (l : List Char) : List (List Char) :=
  (l.foldr
    (fun c acc =>
      if isPySpace c then [] :: acc
      else
        match acc with
        | [] => [[c]]
        | w :: r => (c :: w) :: r)
    [[]]).filter (fun w => !w.isEmpty)

/-- The per-line client-candidate extraction of `parse_time_report`: the
skip heuristics, the per-word filter, the join with single spaces, and the
3–50 length window.  (The `not in clients` dedup happens in the fold.) -/
def candidateOfLine (line : List Char) : Option String :=
  let l := pyStrip line
  if l.length < 3 then none
  else if pyIsdigit l then none
  else if startsNumDate l then none
  else if containsDollarDigit l then none
  else
    let pot := (pySplitGo l).filter keepWord
    if pot.isEmpty then none
    else
      let name := String.mk (List.intercalate [' '] pot)
      if 3 ≤ name.length ∧ name.length ≤ 50 then some name else none

/-- The client-collecting loop of `parse_time_report`, before sorting and
capping (with the `client_name not in clients` check). -/
def clientsRawOf (text : String) : List String :=
  (splitNl text.toList).foldl
    (fun acc line =>
      match candidateOfLine line with
      | some n => if n ∈ acc then acc else acc ++ [n]
      | none => acc) []

/-- Decidable string order used to model Python `sorted` on strings
(lexicographic by code point). -/
def strLeB (a b : String) : Bool := decide (a ≤ b)

/-- The dictionary returned by `parse_time_report`. -/
structure WorkReportRecord where
  dates : List Date
  clients : List String
deriving DecidableEq, Repr

/-- The function `parse_time_report`.  The step `sorted(list(set(clients)))[:10]` sorts the
already-duplicate-free accumulated list and keeps the first 10. -/
def parse_time_report (text : String) : WorkReportRecord :=
  { dates := mineDatesL text.toList
    clients := ((clientsRawOf text).mergeSort strLeB).take 10 }

/-- One dictionary of the `matches` list of `match_dates_to_clients`.
The `date` field is the ordinal of the receipt date (see the header). -/
structure MatchRecord where
  date : Int
  client : String
  address : String
  match_type : String
deriving DecidableEq, Repr

/-- The `time_report_data` argument of the matcher (dates as ordinals). -/
structure TimeReportData where
  dates : List Int
  clients : List String
deriving DecidableEq, Repr

/-- The inner client loop shared by both passes: one record per client that
has an entry in the client-address mapping. -/
def clientRecords (rd : Int) (tag : String) (clients : List String)
    (amap : List (String × String)) : List MatchRecord :=
  clients.filterMap (fun c =>
    match amap.lookup c with
    | some a => some ⟨rd, c, a, tag⟩
    | none => none)

/-- The exact pass for one receipt date. -/
def exactPass (rd : Int) (data : TimeReportData)
    (amap : List (String × String)) : List MatchRecord :=
  if rd ∈ data.dates then clientRecords rd "exact" data.clients amap else []

/-- The ±1-day tolerance pass for one receipt date (`date_diff` inlined). -/
def tolerancePass (rd : Int) (data : TimeReportData)
    (amap : List (String × String)) : List MatchRecord :=
  data.dates.flatMap (fun td =>
    if (rd - td).natAbs ≤ 1 then
      clientRecords rd ("±" ++ toString (rd - td).natAbs ++ " day(s)") data.clients amap
    else [])

/-- The per-receipt-date body of the matcher loop: the tolerance pass runs
exactly when the exact pass produced no record. -/
def matchChunk (rd : Int) (data : TimeReportData)
    (amap : List (String × String)) : List MatchRecord :=
  if (exactPass rd data amap).isEmpty then tolerancePass rd data amap
  else exactPass rd data amap

/-- The function `match_dates_to_clients`. -/
def match_dates_to_clients (receipt_dates : List Int) (data : TimeReportData)
    (amap : List (String × String)) : List MatchRecord :=
  receipt_dates.flatMap (fun rd => matchChunk rd data amap)

/-- Model of `datetime.date.toordinal` (proleptic Gregorian day number, 0001-01-01
is day 1); connects `Date` values to the matcher's ordinals. -/
def dateOrdinal (d : Date) : Int :=
  let y := d.year - 1
  ((365 * y + y / 4 - y / 100 + y / 400 +
    (List.range (d.month - 1)).foldl (fun a i => a + daysInMonth d.year (i + 1)) 0 +
    d.day : Nat) : Int)

/-- The character list of `"03/15/2024"`. -/
def occ0315 : List Char := ['0', '3', '/', '1', '5', '/', '2', '0', '2', '4']

/-- Modelled from the spec's words for C2 only: the claim reads the
cleaning step as *removing* every character outside `[\w\s\-\.]` and then
trimming.  Compare with `cleanLine`, translated from the source, which
*replaces* such characters with spaces. -/
def cleanLineSpecDeletion (line : List Char) : String :=
  String.mk (pyStrip (line.filter allowedLocChar))

/-! ## Lemmas about the matcher -/

lemma mem_clientRecords {m : MatchRecord} {rd : Int} {tag : String}
    {cs : List String} {amap : List (String × String)} :
    m ∈ clientRecords rd tag cs amap ↔
      ∃ c a, c ∈ cs ∧ amap.lookup c = some a ∧ m = ⟨rd, c, a, tag⟩ := by
  simp only [clientRecords, List.mem_filterMap]
  constructor
  · rintro ⟨c, hc, hm⟩
    cases hl : amap.lookup c with
    | none => rw [hl] at hm; simp at hm
    | some a =>
      rw [hl] at hm
      exact ⟨c, a, hc, hl, (Option.some_inj.mp hm).symm⟩
  · rintro ⟨c, a, hc, hl, rfl⟩
    exact ⟨c, hc, by rw [hl]⟩

lemma clientRecords_fields {m : MatchRecord} {rd : Int} {tag : String}
    {cs : List String} {amap : List (String × String)}
    (h : m ∈ clientRecords rd tag cs amap) : m.date = rd ∧ m.match_type = tag := by
  obtain ⟨c, a, -, -, rfl⟩ := mem_clientRecords.mp h
  exact ⟨rfl, rfl⟩

lemma clientRecords_eq_nil {rd : Int} {tag : String} {cs : List String}
    {amap : List (String × String)} :
    clientRecords rd tag cs amap = [] ↔ ∀ c ∈ cs, amap.lookup c = none := by
  constructor
  · intro h c hc
    cases hl : amap.lookup c with
    | none => rfl
    | some a =>
      exfalso
      have hm : (⟨rd, c, a, tag⟩ : MatchRecord) ∈ clientRecords rd tag cs amap :=
        mem_clientRecords.mpr ⟨c, a, hc, hl, rfl⟩
      rw [h] at hm
      exact List.not_mem_nil _ hm
  · intro h
    rw [List.eq_nil_iff_forall_not_mem]
    intro m hm
    obtain ⟨c, a, hc, hl, -⟩ := mem_clientRecords.mp hm
    rw [h c hc] at hl
    exact Option.noConfusion hl

lemma mem_exactPass {m : MatchRecord} {rd : Int} {data : TimeReportData}
    {amap : List (String × String)} :
    m ∈ exactPass rd data amap ↔
      rd ∈ data.dates ∧ m ∈ clientRecords rd "exact" data.clients amap := by
  unfold exactPass
  split <;> simp [*]

lemma mem_tolerancePass {m : MatchRecord} {rd : Int} {data : TimeReportData}
    {amap : List (String × String)} :
    m ∈ tolerancePass rd data amap ↔
      ∃ td ∈ data.dates, (rd - td).natAbs ≤ 1 ∧
        m ∈ clientRecords rd ("±" ++ toString (rd - td).natAbs ++ " day(s)")
              data.clients amap := by
  simp only [tolerancePass, List.mem_flatMap]
  constructor
  · rintro ⟨td, htd, hm⟩
    by_cases hd : (rd - td).natAbs ≤ 1
    · rw [if_pos hd] at hm
      exact ⟨td, htd, hd, hm⟩
    · rw [if_neg hd] at hm
      exact absurd hm (List.not_mem_nil _)
  · rintro ⟨td, htd, hd, hm⟩
    exact ⟨td, htd, by rw [if_pos hd]; exact hm⟩

lemma matchChunk_date {m : MatchRecord} {rd : Int} {data : TimeReportData}
    {amap : List (String × String)} (h : m ∈ matchChunk rd data amap) :
    m.date = rd := by
  unfold matchChunk at h
  by_cases he : (exactPass rd data amap).isEmpty
  · rw [if_pos he] at h
    obtain ⟨td, -, -, hm⟩ := mem_tolerancePass.mp h
    exact (clientRecords_fields hm).1
  · rw [if_neg he] at h
    exact (clientRecords_fields (mem_exactPass.mp h).2).1

lemma clientRecords_length (rd : Int) (tag : String) (amap : List (String × String)) :
    ∀ cs : List String, (clientRecords rd tag cs amap).length =
      (cs.filter (fun c => (amap.lookup c).isSome)).length := by
  intro cs
  induction cs with
  | nil => rfl
  | cons c t ih =>
    simp only [clientRecords, List.filterMap_cons, List.filter_cons] at *
    cases hl : amap.lookup c with
    | none => simpa [hl] using ih
    | some a => simpa [hl] using ih

lemma flatMap_eq_of_count_one {rd : Int} {rds : List Int} {f : Int → List MatchRecord}
    (hc : rds.count rd = 1) (hf : ∀ x, x ≠ rd → f x = []) :
    rds.flatMap f = f rd := by
  induction rds with
  | nil => simp at hc
  | cons a l ih =>
    by_cases ha : a = rd
    · subst ha
      rw [List.count_cons_self] at hc
      have h0 : l.count a = 0 := by omega
      have hnil : l.flatMap f = [] :=
        List.flatMap_eq_nil_iff.mpr (fun x hx => hf x (by
          rintro rfl
          exact (List.count_eq_zero.mp h0) hx))
      simp [List.flatMap_cons, hnil]
    · rw [List.count_cons_of_ne (fun h => ha h.symm)] at hc
      simp [List.flatMap_cons, hf a ha, ih hc]

/-! ## Claims about the matcher (C3, C4, C5, C10) -/

/-- C3: in `match_dates_to_clients` the tolerance pass for a receipt date
runs only when the exact pass produced zero records for that date, and no
emitted record carries the tag `"±0 day(s)"`: every record is tagged
`"exact"` or `"±1 day(s)"`. -/
theorem claim_C3_tolerance_only_after_empty_exact (rds : List Int)
    (data : TimeReportData) (amap : List (String × String)) :
    (∀ rd, exactPass rd data amap ≠ [] →
      matchChunk rd data amap = exactPass rd data amap) ∧
    (∀ m ∈ match_dates_to_clients rds data amap,
      m.match_type = "exact" ∨ m.match_type = "±1 day(s)") := by
  constructor
  · intro rd hne
    unfold matchChunk
    rw [if_neg (by simpa [List.isEmpty_iff] using hne)]
  · intro m hm
    obtain ⟨rd, -, hm⟩ := List.mem_flatMap.mp hm
    unfold matchChunk at hm
    by_cases he : (exactPass rd data amap).isEmpty
    · rw [if_pos he] at hm
      obtain ⟨td, htd, hd, hmc⟩ := mem_tolerancePass.mp hm
      have h01 : (rd - td).natAbs = 0 ∨ (rd - td).natAbs = 1 := by omega
      rcases h01 with h0 | h1
      · exfalso
        have heq : rd = td := by omega
        obtain ⟨c, a, hc, hl, -⟩ := mem_clientRecords.mp hmc
        have hmem : (⟨rd, c, a, "exact"⟩ : MatchRecord) ∈ exactPass rd data amap :=
          mem_exactPass.mpr ⟨heq ▸ htd, mem_clientRecords.mpr ⟨c, a, hc, hl, rfl⟩⟩
        rw [List.isEmpty_iff.mp he] at hmem
        exact List.not_mem_nil _ hmem
      · right
        rw [h1] at hmc
        rw [(clientRecords_fields hmc).2]
        decide
    · rw [if_neg he] at hm
      exact Or.inl (clientRecords_fields (mem_exactPass.mp hm).2).2

/-- Witness for C3 at a concrete input: with work date 10 and client A
mapped, the chunk for receipt date 10 is the exact pass, and the one
record produced for receipt date 11 is tagged `"±1 day(s)"`. -/
theorem claim_C3_witness :
    matchChunk 10 ⟨[10], ["A"]⟩ [("A", "x")] = exactPass 10 ⟨[10], ["A"]⟩ [("A", "x")] ∧
    ((⟨11, "A", "x", "±1 day(s)"⟩ : MatchRecord).match_type = "exact" ∨
     (⟨11, "A", "x", "±1 day(s)"⟩ : MatchRecord).match_type = "±1 day(s)") :=
  ⟨(claim_C3_tolerance_only_after_empty_exact [10] ⟨[10], ["A"]⟩ [("A", "x")]).1 10
      (by decide),
   (claim_C3_tolerance_only_after_empty_exact [11] ⟨[10], ["A"]⟩ [("A", "x")]).2
      ⟨11, "A", "x", "±1 day(s)"⟩ (by decide)⟩

/-- C4: for a receipt date occurring once in the receipt list and present
in the work-report date set, the records carrying that date are exactly one
`"exact"`-tagged record per client that has an entry in the address map. -/
theorem claim_C4_exact_pass_cross_product (rds : List Int) (data : TimeReportData)
    (amap : List (String × String)) (rd : Int)
    (h1 : rds.count rd = 1) (h2 : rd ∈ data.dates) :
    (match_dates_to_clients rds data amap).filter (fun m => decide (m.date = rd)) =
        clientRecords rd "exact" data.clients amap ∧
    (clientRecords rd "exact" data.clients amap).length =
        (data.clients.filter (fun c => (amap.lookup c).isSome)).length ∧
    ∀ m ∈ clientRecords rd "exact" data.clients amap, m.match_type = "exact" := by
  refine ⟨?_, clientRecords_length rd "exact" amap data.clients,
    fun m hm => (clientRecords_fields hm).2⟩
  unfold match_dates_to_clients
  rw [List.filter_flatMap]
  have hstep : ∀ x, x ≠ rd →
      (matchChunk x data amap).filter (fun m => decide (m.date = rd)) = [] := by
    intro x hx
    exact List.filter_eq_nil_iff.mpr (fun m hm => by simp [matchChunk_date hm, hx])
  rw [flatMap_eq_of_count_one h1 hstep]
  have hco : matchChunk rd data amap = clientRecords rd "exact" data.clients amap := by
    unfold matchChunk
    by_cases he : (exactPass rd data amap).isEmpty
    · rw [if_pos he]
      have hnone : ∀ c ∈ data.clients, amap.lookup c = none := by
        have hnil : exactPass rd data amap = [] := List.isEmpty_iff.mp he
        rw [exactPass, if_pos h2] at hnil
        exact clientRecords_eq_nil.mp hnil
      have htol : tolerancePass rd data amap = [] :=
        List.flatMap_eq_nil_iff.mpr (fun td _ => by
          split
          · exact clientRecords_eq_nil.mpr hnone
          · rfl)
      rw [htol]
      exact (clientRecords_eq_nil.mpr hnone).symm
    · rw [if_neg he, exactPass, if_pos h2]
  rw [hco]
  exact List.filter_eq_self.mpr (fun m hm => by simp [(clientRecords_fields hm).1])

/-- Witness for C4: the spec's Acme scenario.  Receipt and work dates are
both 2024-03-15 (ordinal 738960), one client with a known address; the
matcher output is exactly one exact record. -/
theorem claim_C4_witness :
    dateOrdinal ⟨2024, 3, 15⟩ = 738960 ∧
    match_dates_to_clients [738960] ⟨[738960], ["Acme Inc"]⟩ [("Acme Inc", "1 Main St")] =
      [⟨738960, "Acme Inc", "1 Main St", "exact"⟩] ∧
    (match_dates_to_clients [738960] ⟨[738960], ["Acme Inc"]⟩
        [("Acme Inc", "1 Main St")]).filter (fun m => decide (m.date = 738960)) =
      clientRecords 738960 "exact" ["Acme Inc"] [("Acme Inc", "1 Main St")] :=
  ⟨by decide, by decide,
   (claim_C4_exact_pass_cross_product [738960] ⟨[738960], ["Acme Inc"]⟩
      [("Acme Inc", "1 Main St")] 738960 (by decide) (by decide)).1⟩

/-- C5: a receipt date with no work-report date within one day, or with no
client having a resolvable address, contributes nothing: no output record
carries that date. -/
theorem claim_C5_unmatched_dates_dropped (rds : List Int) (data : TimeReportData)
    (amap : List (String × String)) (rd : Int)
    (h : (∀ td ∈ data.dates, 1 < (rd - td).natAbs) ∨
         (∀ c ∈ data.clients, amap.lookup c = none)) :
    (match_dates_to_clients rds data amap).filter (fun m => decide (m.date = rd)) = [] := by
  apply List.filter_eq_nil_iff.mpr
  intro m hm
  simp only [decide_eq_true_eq]
  intro hdate
  obtain ⟨rd', -, hm⟩ := List.mem_flatMap.mp hm
  have hrd : rd' = rd := by rw [← matchChunk_date hm, hdate]
  subst hrd
  rcases h with hfar | hnocl
  · have hne : rd' ∉ data.dates := fun hin => by
      have := hfar rd' hin
      omega
    unfold matchChunk at hm
    rw [exactPass, if_neg hne] at hm
    simp only [List.isEmpty_nil, if_true] at hm
    obtain ⟨td, htd, hdiff, -⟩ := mem_tolerancePass.mp hm
    exact absurd hdiff (by have := hfar td htd; omega)
  · have hcrnil : ∀ tag, clientRecords rd' tag data.clients amap = [] :=
      fun tag => clientRecords_eq_nil.mpr hnocl
    unfold matchChunk at hm
    by_cases he : (exactPass rd' data amap).isEmpty
    · rw [if_pos he] at hm
      obtain ⟨td, -, -, hmc⟩ := mem_tolerancePass.mp hm
      rw [hcrnil _] at hmc
      exact List.not_mem_nil _ hmc
    · rw [if_neg he] at hm
      have hmc := (mem_exactPass.mp hm).2
      rw [hcrnil _] at hmc
      exact List.not_mem_nil _ hmc

/-- Witness for C5: receipt date 100, the only work date 50 is far away;
no record with date 100 appears. -/
theorem claim_C5_witness :
    (match_dates_to_clients [100] ⟨[50], ["A"]⟩ [("A", "x")]).filter
      (fun m => decide (m.date = 100)) = [] :=
  claim_C5_unmatched_dates_dropped [100] ⟨[50], ["A"]⟩ [("A", "x")] 100
    (Or.inl (by decide))

lemma mem_tolerance_step (rd td : Int) {data : TimeReportData}
    {amap : List (String × String)} {c a : String}
    (h : (rd - td).natAbs = 1) (hc : c ∈ data.clients) (ha : amap.lookup c = some a) :
    (⟨rd, c, a, "±1 day(s)"⟩ : MatchRecord) ∈
      (if (rd - td).natAbs ≤ 1 then
        clientRecords rd ("±" ++ toString (rd - td).natAbs ++ " day(s)") data.clients amap
      else []) := by
  rw [h, if_pos (by omega)]
  refine mem_clientRecords.mpr ⟨c, a, hc, ha, ?_⟩
  have hts : ("±1 day(s)" : String) = "±" ++ toString (1 : Nat) ++ " day(s)" := by decide
  rw [hts]

/-- C10: a receipt date with no exact match but with both the previous and
the next day in the work-report dates yields, per client with a known
address, at least two identical `"±1 day(s)"` records in the output. -/
theorem claim_C10_duplicate_tolerance_records (rds : List Int)
    (data : TimeReportData) (amap : List (String × String)) (rd : Int) (c a : String)
    (h1 : rd ∈ rds) (h2 : rd - 1 ∈ data.dates) (h3 : rd + 1 ∈ data.dates)
    (h4 : rd ∉ data.dates) (h5 : c ∈ data.clients) (h6 : amap.lookup c = some a) :
    2 ≤ (match_dates_to_clients rds data amap).count ⟨rd, c, a, "±1 day(s)"⟩ := by
  have hperm := List.perm_cons_erase h1
  have hcount := (List.Perm.flatMap_right
    (fun rd' => matchChunk rd' data amap) hperm).count_eq
    (⟨rd, c, a, "±1 day(s)"⟩ : MatchRecord)
  rw [match_dates_to_clients, hcount, List.flatMap_cons, List.count_append]
  have hchunk : 2 ≤ (matchChunk rd data amap).count ⟨rd, c, a, "±1 day(s)"⟩ := by
    have hex : exactPass rd data amap = [] := by rw [exactPass, if_neg h4]
    rw [matchChunk, hex]
    simp only [List.isEmpty_nil, if_true]
    have hd2 : rd + 1 ∈ data.dates.erase (rd - 1) :=
      (List.mem_erase_of_ne (by omega)).mpr h3
    have hperm2 : data.dates.Perm
        ((rd - 1) :: (rd + 1) :: ((data.dates.erase (rd - 1)).erase (rd + 1))) :=
      (List.perm_cons_erase h2).trans (List.Perm.cons _ (List.perm_cons_erase hd2))
    rw [tolerancePass,
      (List.Perm.flatMap_right _ hperm2).count_eq (⟨rd, c, a, "±1 day(s)"⟩ : MatchRecord),
      List.flatMap_cons, List.flatMap_cons, List.count_append, List.count_append]
    have hc1 := List.count_pos_iff.mpr (mem_tolerance_step rd (rd - 1)
      (by omega) h5 h6)
    have hc2 := List.count_pos_iff.mpr (mem_tolerance_step rd (rd + 1)
      (by omega) h5 h6)
    omega
  omega

/-- Witness for C10: receipt date 100, work dates 99 and 101, one mapped
client; the record appears at least twice. -/
theorem claim_C10_witness :
    2 ≤ (match_dates_to_clients [100] ⟨[99, 101], ["A"]⟩ [("A", "x")]).count
      ⟨100, "A", "x", "±1 day(s)"⟩ :=
  claim_C10_duplicate_tolerance_records [100] ⟨[99, 101], ["A"]⟩ [("A", "x")] 100 "A" "x"
    (by decide) (by decide) (by decide) (by decide) (by decide) (by decide)

/-! ## Claims about the Date Miner on texts containing `03/15/2024` (C1) -/

lemma isWordChar_of_isDig {c : Char} (h : isDig c = true) : isWordChar c = true := by
  simp only [isWordChar, Char.isAlphanum, isDig] at *
  simp [h]

lemma getLast?_drop_of_lt {l : List Char} {j : Nat} (h : j < l.length) :
    (l.drop j).getLast? = l.getLast? := by
  induction l generalizing j with
  | nil => simp at h
  | cons a t ih =>
    cases j with
    | zero => rfl
    | succ j' =>
      simp only [List.drop_succ_cons]
      rw [ih (by simpa using h)]
      cases t with
      | nil => simp at h
      | cons b t' => rw [List.getLast?_cons_cons]

/-- Inversion for a successful `tryP1` match: the input starts with two
digit groups of length 1–2 and one of length 4, separated by `[/.-]`
characters, followed by a word boundary, and the groups and consumed
count are determined by that shape. -/
lemma tryP1_some {s : List Char} {g : List Char × List Char × List Char} {n : Nat}
    (h : tryP1 s = some (g, n)) :
    ∃ d1 c1 d2 c2 d3 rest,
      g = (d1, d2, d3) ∧
      s = d1 ++ c1 :: (d2 ++ c2 :: (d3 ++ rest)) ∧
      (∀ c ∈ d1, isDig c = true) ∧ (∀ c ∈ d2, isDig c = true) ∧
      (∀ c ∈ d3, isDig c = true) ∧
      1 ≤ d1.length ∧ d1.length ≤ 2 ∧ 1 ≤ d2.length ∧ d2.length ≤ 2 ∧
      d3.length = 4 ∧ isSep c1 = true ∧ isSep c2 = true ∧ endBOk rest = true ∧
      n = d1.length + d2.length + 6 := by
  simp only [tryP1] at h
  split at h
  next hA => exact absurd h (by simp)
  next hA =>
    split at h
    next heq1 => exact absurd h (by simp)
    next c1 r1 heq1 =>
      split at h
      next hc1 =>
        split at h
        next hB => exact absurd h (by simp)
        next hB =>
          split at h
          next heq2 => exact absurd h (by simp)
          next c2 r2 heq2 =>
            split at h
            next hc2 =>
              split at h
              next hC =>
                injection h with hpair
                injection hpair with hg hn
                push_neg at hA hB
                rw [Bool.and_eq_true] at hC
                obtain ⟨h4, hEnd⟩ := hC
                have h4' : (r2.takeWhile isDig).length = 4 := of_decide_eq_true h4
                have er1 : r1 = r1.takeWhile isDig ++ r1.dropWhile isDig :=
                  (List.takeWhile_append_dropWhile _ _).symm
                rw [heq2] at er1
                have er2 : r2 = r2.takeWhile isDig ++ r2.dropWhile isDig :=
                  (List.takeWhile_append_dropWhile _ _).symm
                rw [er2] at er1
                have hs : s = s.takeWhile isDig ++ s.dropWhile isDig :=
                  (List.takeWhile_append_dropWhile _ _).symm
                rw [heq1, er1] at hs
                exact ⟨s.takeWhile isDig, c1, r1.takeWhile isDig, c2, r2.takeWhile isDig,
                  r2.dropWhile isDig, hg.symm, hs,
                  fun c hc => List.mem_takeWhile_imp hc,
                  fun c hc => List.mem_takeWhile_imp hc,
                  fun c hc => List.mem_takeWhile_imp hc,
                  by omega, by omega, by omega, by omega, h4', hc1, hc2, hEnd, hn.symm⟩
              next hC => exact absurd h (by simp)
            next hc2 => exact absurd h (by simp)
      next hc1 => exact absurd h (by simp)

lemma takeWhile_isDig_post {post : List Char} (hpost : endBOk post = true) :
    post.takeWhile isDig = [] := by
  cases post with
  | nil => rfl
  | cons p t =>
    apply List.takeWhile_cons_of_neg
    intro hd
    have hw : isWordChar p = false := by simpa [endBOk] using hpost
    rw [isWordChar_of_isDig hd] at hw
    exact Bool.noConfusion hw

lemma dropWhile_isDig_post {post : List Char} (hpost : endBOk post = true) :
    post.dropWhile isDig = post := by
  cases post with
  | nil => rfl
  | cons p t =>
    apply List.dropWhile_cons_of_neg
    intro hd
    have hw : isWordChar p = false := by simpa [endBOk] using hpost
    rw [isWordChar_of_isDig hd] at hw
    exact Bool.noConfusion hw

/-- At a position where `"03/15/2024"` starts and the following character
(if any) is not a word character, `tryP1` matches it with groups `03`,
`15`, `2024`, consuming 10 characters — whatever follows. -/
lemma tryP1_at_occ (post : List Char) (hpost : endBOk post = true) :
    tryP1 (occ0315 ++ post) = some ((['0', '3'], ['1', '5'], ['2', '0', '2', '4']), 10) := by
  have h1 : (occ0315 ++ post).takeWhile isDig = ['0', '3'] := by
    show List.takeWhile isDig ('0' :: '3' :: '/' :: _) = _
    rw [List.takeWhile_cons_of_pos (by decide), List.takeWhile_cons_of_pos (by decide),
        List.takeWhile_cons_of_neg (by decide)]
  have h2 : (occ0315 ++ post).dropWhile isDig =
      '/' :: ('1' :: '5' :: '/' :: '2' :: '0' :: '2' :: '4' :: post) := by
    show List.dropWhile isDig ('0' :: '3' :: '/' :: _) = _
    rw [List.dropWhile_cons_of_pos (by decide), List.dropWhile_cons_of_pos (by decide),
        List.dropWhile_cons_of_neg (by decide)]
    try rfl
  have h3 : List.takeWhile isDig ('1' :: '5' :: '/' :: '2' :: '0' :: '2' :: '4' :: post) =
      ['1', '5'] := by
    rw [List.takeWhile_cons_of_pos (by decide), List.takeWhile_cons_of_pos (by decide),
        List.takeWhile_cons_of_neg (by decide)]
  have h4 : List.dropWhile isDig ('1' :: '5' :: '/' :: '2' :: '0' :: '2' :: '4' :: post) =
      '/' :: ('2' :: '0' :: '2' :: '4' :: post) := by
    rw [List.dropWhile_cons_of_pos (by decide), List.dropWhile_cons_of_pos (by decide),
        List.dropWhile_cons_of_neg (by decide)]
    try rfl
  have h5 : List.takeWhile isDig ('2' :: '0' :: '2' :: '4' :: post) =
      ['2', '0', '2', '4'] := by
    rw [List.takeWhile_cons_of_pos (by decide), List.takeWhile_cons_of_pos (by decide),
        List.takeWhile_cons_of_pos (by decide), List.takeWhile_cons_of_pos (by decide),
        takeWhile_isDig_post hpost]
  have h6 : List.dropWhile isDig ('2' :: '0' :: '2' :: '4' :: post) = post := by
    rw [List.dropWhile_cons_of_pos (by decide), List.dropWhile_cons_of_pos (by decide),
        List.dropWhile_cons_of_pos (by decide), List.dropWhile_cons_of_pos (by decide),
        dropWhile_isDig_post hpost]
  simp only [tryP1, h1, h2, h3, h4, h5, h6]
  simp [hpost, isSep]

/-- If a suffix of `s` starting at `j` lies inside an all-digit block `D`
of a decomposition of `s ++ tail`, then the last character of `s` is a
digit — contradicting that it is not a word character. -/
lemma last_in_digits_contra (s tail D Y : List Char) (x : Char) (j : Nat)
    (hj : j < s.length)
    (hx : s.getLast? = some x) (hxw : isWordChar x = false)
    (hdrop : s.drop j ++ tail = D ++ Y)
    (hlen : s.length - j ≤ D.length)
    (hD : ∀ c ∈ D, isDig c = true) : False := by
  have h1 : (s.drop j ++ tail).take (s.drop j).length = s.drop j := List.take_left _ _
  rw [hdrop, List.length_drop] at h1
  rw [List.take_append_of_le_length hlen] at h1
  have hx' : (s.drop j).getLast? = some x := by rw [getLast?_drop_of_lt hj]; exact hx
  have hxin : x ∈ s.drop j := List.mem_of_mem_getLast? hx'
  rw [← h1] at hxin
  have hdig := hD x ((List.take_sublist _ _).subset hxin)
  rw [isWordChar_of_isDig hdig] at hxw
  exact Bool.noConfusion hxw

lemma drop_shape_one (d1 : List Char) (c1 : Char) (X : List Char) :
    (d1 ++ c1 :: X).drop (d1.length + 1) = X := by
  rw [List.append_cons]
  have h : (d1 ++ [c1]).length = d1.length + 1 := by simp
  rw [← h, List.drop_left]

lemma drop_shape_two (d1 d2 : List Char) (c1 c2 : Char) (Z : List Char) :
    (d1 ++ c1 :: (d2 ++ c2 :: Z)).drop (d1.length + d2.length + 2) = Z := by
  rw [List.append_cons d1 c1, List.append_cons d2 c2, ← List.append_assoc]
  have h : (d1 ++ [c1] ++ (d2 ++ [c2])).length = d1.length + d2.length + 2 := by
    simp
    omega
  rw [← h, List.drop_left]

/-- No `tryP1` match that starts inside `s` can reach into a following
occurrence of `"03/15/2024"`, provided the last character of `s` is not a
word character: the match stays strictly inside `s`. -/
lemma tryP1_no_overlap (s post : List Char) (hs : s ≠ [])
    (hlast : ∀ x, s.getLast? = some x → isWordChar x = false)
    {g : List Char × List Char × List Char} {n : Nat}
    (h : tryP1 (s ++ (occ0315 ++ post)) = some (g, n)) :
    1 ≤ n ∧ n < s.length := by
  obtain ⟨d1, c1, d2, c2, d3, rest, -, hw, hd1, hd2, hd3,
    hl1a, hl1b, hl2a, hl2b, hl3, hc1, hc2, -, hn⟩ := tryP1_some h
  refine ⟨by omega, ?_⟩
  by_contra hge
  push_neg at hge
  have hx : s.getLast? = some (s.getLast hs) := List.getLast?_eq_getLast s hs
  have hxw := hlast _ hx
  have hkpos : 0 < s.length := List.length_pos.mpr hs
  have hdropk : occ0315 ++ post = (d1 ++ c1 :: (d2 ++ c2 :: (d3 ++ rest))).drop s.length := by
    rw [← hw, List.drop_left]
  rcases (by omega : s.length ≤ d1.length ∨ s.length = d1.length + 1 ∨
      (d1.length + 1 < s.length ∧ s.length ≤ d1.length + 1 + d2.length) ∨
      s.length = d1.length + d2.length + 2 ∨ d1.length + d2.length + 2 < s.length)
    with hcase | hcase | hcase | hcase | hcase
  · exact last_in_digits_contra s (occ0315 ++ post) d1
      (c1 :: (d2 ++ c2 :: (d3 ++ rest))) (s.getLast hs) 0 (by omega) hx hxw
      (by rw [List.drop_zero]; exact hw) (by omega) hd1
  · have he : occ0315 ++ post = d2 ++ c2 :: (d3 ++ rest) := by
      rw [hdropk, hcase, drop_shape_one]
    have h22 : d2.length = 1 ∨ d2.length = 2 := by omega
    have hdd := congrArg (List.drop d2.length) he
    rw [List.drop_left] at hdd
    rcases h22 with h21 | h21
    · rw [h21] at hdd
      have h3' : ('3' :: ('/' :: '1' :: '5' :: '/' :: '2' :: '0' :: '2' :: '4' :: post)) =
          c2 :: (d3 ++ rest) := by simpa [occ0315] using hdd
      injection h3' with hcc hrest2
      rw [← hcc] at hc2
      exact absurd hc2 (by decide)
    · rw [h21] at hdd
      have h3' : ('/' :: ('1' :: '5' :: '/' :: '2' :: '0' :: '2' :: '4' :: post)) =
          c2 :: (d3 ++ rest) := by simpa [occ0315] using hdd
      injection h3' with hcc hZ
      have h4' := congrArg (List.take d3.length) hZ
      rw [List.take_left, hl3] at h4'
      have hd3eq : d3 = ['1', '5', '/', '2'] := by
        rw [← h4']
        rfl
      have hbad : isDig '/' = true := hd3 '/' (by rw [hd3eq]; decide)
      exact absurd hbad (by decide)
  · refine last_in_digits_contra s (occ0315 ++ post) d2
      (c2 :: (d3 ++ rest)) (s.getLast hs) (d1.length + 1) (by omega) hx hxw ?_
      (by omega) hd2
    have h' := congrArg (List.drop (d1.length + 1)) hw
    rw [List.drop_append_of_le_length (by omega), drop_shape_one] at h'
    exact h'
  · have he : occ0315 ++ post = d3 ++ rest := by
      rw [hdropk, hcase, drop_shape_two]
    have h4' := congrArg (List.take d3.length) he
    rw [List.take_left, hl3] at h4'
    have hd3eq : d3 = ['0', '3', '/', '1'] := by
      have : (occ0315 ++ post).take 4 = ['0', '3', '/', '1'] := by simp [occ0315]
      rw [this] at h4'
      exact h4'.symm
    have hbad : isDig '/' = true := hd3 '/' (by rw [hd3eq]; decide)
    exact absurd hbad (by decide)
  · refine last_in_digits_contra s (occ0315 ++ post) d3 rest (s.getLast hs)
      (d1.length + d2.length + 2) (by omega) hx hxw ?_ (by omega) hd3
    have h' := congrArg (List.drop (d1.length + d2.length + 2)) hw
    rw [List.drop_append_of_le_length (by omega), drop_shape_two] at h'
    exact h'

lemma getLast?_cons_of_ne_nil {c : Char} {s' : List Char} (h : s' ≠ []) :
    (c :: s').getLast? = s'.getLast? := by
  cases s' with
  | nil => exact absurd rfl h
  | cons b t => rw [List.getLast?_cons_cons]

lemma scanPF_cons (tryM : List Char → Option ((List Char × List Char × List Char) × Nat))
    (fuel : Nat) (prevW : Bool) (c : Char) (t : List Char) :
    scanPF tryM (fuel + 1) prevW (c :: t) =
      match (if prevW then none else tryM (c :: t)) with
      | some (g, n) => g :: scanPF tryM fuel true (t.drop (n - 1))
      | none => scanPF tryM fuel (isWordChar c) t := rfl

/-- The pattern-1 scan over `s ++ "03/15/2024" ++ post` finds the groups
`("03", "15", "2024")`, provided the characters adjacent to the
occurrence (the last of `s`, the first of `post`) are not word
characters. -/
lemma scanPF_finds (post : List Char) (hpost : endBOk post = true) :
    ∀ (fuel : Nat) (prevW : Bool) (s : List Char),
      (s ++ (occ0315 ++ post)).length ≤ fuel →
      (s = [] → prevW = false) →
      (∀ x, s.getLast? = some x → isWordChar x = false) →
      ((['0', '3'], ['1', '5'], ['2', '0', '2', '4']) :
          List Char × List Char × List Char) ∈
        scanPF tryP1 fuel prevW (s ++ (occ0315 ++ post)) := by
  intro fuel
  induction fuel with
  | zero =>
    intro prevW s hlen _ _
    exfalso
    simp [occ0315] at hlen
  | succ fuel ih =>
    intro prevW s hlen hks hlast
    cases s with
    | nil =>
      have hpw : prevW = false := hks rfl
      subst hpw
      have htry : tryP1 ('0' :: '3' :: '/' :: '1' :: '5' :: '/' :: '2' :: '0' :: '2' :: '4' :: post) =
          some ((['0', '3'], ['1', '5'], ['2', '0', '2', '4']), 10) :=
        tryP1_at_occ post hpost
      have hocc : ([] : List Char) ++ (occ0315 ++ post) =
          '0' :: ('3' :: '/' :: '1' :: '5' :: '/' :: '2' :: '0' :: '2' :: '4' :: post) := rfl
      rw [hocc, scanPF_cons, if_neg (by simp), htry]
      exact List.mem_cons_self _ _
    | cons c s' =>
      rw [List.cons_append, scanPF_cons]
      have hlen' : (s' ++ (occ0315 ++ post)).length ≤ fuel := by
        simpa using Nat.le_of_succ_le_succ (by simpa using hlen)
      cases hpw : prevW with
      | true =>
        rw [if_pos rfl]
        refine ih (isWordChar c) s' hlen' ?_ ?_
        · intro hnil
          subst hnil
          have := hlast c (by rfl)
          exact this
        · intro x hx'
          by_cases hnil : s' = []
          · subst hnil
            exact absurd hx' (by simp)
          · exact hlast x (by rw [getLast?_cons_of_ne_nil hnil]; exact hx')
      | false =>
        rw [if_neg (by simp)]
        cases htry : tryP1 (c :: (s' ++ (occ0315 ++ post))) with
        | none =>
          refine ih (isWordChar c) s' hlen' ?_ ?_
          · intro hnil
            subst hnil
            exact hlast c (by rfl)
          · intro x hx'
            by_cases hnil : s' = []
            · subst hnil
              exact absurd hx' (by simp)
            · exact hlast x (by rw [getLast?_cons_of_ne_nil hnil]; exact hx')
        | some gn =>
          obtain ⟨g, n⟩ := gn
          have hB := tryP1_no_overlap (c :: s') post (by simp) hlast
            (by rw [List.cons_append]; exact htry)
          have hn1 : 1 ≤ n := hB.1
          have hns : n < s'.length + 1 := by simpa using hB.2
          have hdropeq : (s' ++ (occ0315 ++ post)).drop (n - 1) =
              s'.drop (n - 1) ++ (occ0315 ++ post) :=
            List.drop_append_of_le_length (by omega)
          have hlt : n - 1 < s'.length := by omega
          have hne : s'.drop (n - 1) ≠ [] := by
            intro hcon
            have := congrArg List.length hcon
            simp [List.length_drop] at this
            omega
          refine List.mem_cons_of_mem _ ?_
          rw [hdropeq]
          refine ih true (s'.drop (n - 1))
            (le_trans (by simp only [List.length_append, List.length_drop]; omega) hlen') ?_ ?_
          · intro hcon
            exact absurd hcon hne
          · intro x hx'
            apply hlast
            have hs'ne : s' ≠ [] := by
              intro hcon
              subst hcon
              simp at hlt
            rw [getLast?_cons_of_ne_nil hs'ne, ← getLast?_drop_of_lt hlt]
            exact hx'

lemma mkDate_valid {y m d : Nat} {dd : Date} (h : mkDate y m d = some dd) :
    ValidDate dd := by
  unfold mkDate at h
  split at h
  next hv =>
    injection h with h'
    rw [← h']
    exact hv
  next => exact absurd h (by simp)

lemma interpretGroups_valid {g : List Char × List Char × List Char} {dd : Date}
    (h : interpretGroups g = some dd) : ValidDate dd := by
  obtain ⟨a, b, c⟩ := g
  simp only [interpretGroups] at h
  split at h
  · split at h
    · exact mkDate_valid h
    · exact mkDate_valid h
  · split at h
    next m hm => exact mkDate_valid h
    next hm =>
      split at h
      next m2 hm2 => exact mkDate_valid h
      next hm2 => exact absurd h (by simp)

lemma mineDatesL_valid {l : List Char} {d : Date} (h : d ∈ mineDatesL l) :
    ValidDate d := by
  unfold mineDatesL at h
  have h' := List.mem_dedup.mp h
  simp only [List.mem_append, List.mem_filterMap] at h'
  rcases h' with ((⟨g, -, hg⟩ | ⟨g, -, hg⟩) | ⟨g, -, hg⟩) | ⟨g, -, hg⟩ <;>
    exact interpretGroups_valid hg

lemma mem_mineDatesL_of_p1 {l : List Char} {g : List Char × List Char × List Char}
    {d : Date} (hg : g ∈ scanP tryP1 false l) (hi : interpretGroups g = some d) :
    d ∈ mineDatesL l := by
  unfold mineDatesL
  exact List.mem_dedup.mpr
    (List.mem_append_left _ (List.mem_append_left _ (List.mem_append_left _
      (List.mem_filterMap.mpr ⟨g, hg, hi⟩))))

/-- C1 (amended): (i) for every text in which `"03/15/2024"` occurs with a
word boundary on both sides — the characters adjacent to the occurrence,
if any, are not word characters — the Date Miner's result contains
March 15, 2024; (ii) every date in any result is a valid calendar date,
so no date derived from the calendar-invalid candidate `"02/30/2024"`
can ever appear, and the candidate is dropped without an error: on the
text `"02/30/2024"` itself the result is simply empty. -/
theorem claim_C1_date_miner_finds_0315 :
    (∀ pre post : List Char,
      (∀ c, pre.getLast? = some c → isWordChar c = false) →
      (∀ c, post.head? = some c → isWordChar c = false) →
      (⟨2024, 3, 15⟩ : Date) ∈ mineDatesL (pre ++ occ0315 ++ post)) ∧
    (∀ (l : List Char) (d : Date), d ∈ mineDatesL l → ValidDate d) ∧
    occ0315 = "03/15/2024".toList ∧
    mineDatesL "02/30/2024".toList = [] := by
  refine ⟨?_, fun l d h => mineDatesL_valid h, by decide, by decide⟩
  intro pre post hpre hpost
  have hpost' : endBOk post = true := by
    cases post with
    | nil => rfl
    | cons p t =>
      have := hpost p rfl
      simp [endBOk, this]
  have hg : ((['0', '3'], ['1', '5'], ['2', '0', '2', '4']) :
      List Char × List Char × List Char) ∈
      scanP tryP1 false (pre ++ (occ0315 ++ post)) := by
    unfold scanP
    exact scanPF_finds post hpost' _ false pre (le_refl _) (fun _ => rfl)
      (fun x hx => hpre x hx)
  rw [List.append_assoc]
  exact mem_mineDatesL_of_p1 hg (by decide)

/-- Counterexample to C1 as stated: the text `"103/15/2024"` contains the
substring `"03/15/2024"`, yet the Date Miner returns no date at all — the
regex word boundary `\b` rejects the three-digit run `103`, so March 15,
2024 is not in the result. -/
theorem claim_C1_counterexample :
    ("103/15/2024" : String) = "1" ++ "03/15/2024" ∧
    mineDatesL "103/15/2024".toList = [] :=
  ⟨by decide, by decide⟩

/-- Witness for C1 with empty context around the occurrence. -/
theorem claim_C1_witness :
    (⟨2024, 3, 15⟩ : Date) ∈ mineDatesL ([] ++ occ0315 ++ []) ∧
    ValidDate ⟨2024, 3, 15⟩ := by
  have hmem := claim_C1_date_miner_finds_0315.1 [] []
    (fun c hc => by simp at hc) (fun c hc => by simp at hc)
  exact ⟨hmem, claim_C1_date_miner_finds_0315.2.1 _ _ hmem⟩

/-! ## Claims about the Date Miner's set semantics (C6) and amounts (C9) -/

/-- C6: the Date Miner's result is duplicate-free, and two runs on the
same text agree as sets of dates. -/
theorem claim_C6_date_miner_set (text : String) :
    (parse_dates_from_text text).Nodup ∧
    ∀ text' : String, text' = text →
      (parse_dates_from_text text').toFinset = (parse_dates_from_text text).toFinset := by
  constructor
  · unfold parse_dates_from_text mineDatesL
    exact List.nodup_dedup _
  · intro t' h
    rw [h]

/-- Witness for C6 on a concrete text. -/
theorem claim_C6_witness :
    (parse_dates_from_text "03/15/2024").toFinset =
      (parse_dates_from_text "03/15/2024").toFinset :=
  (claim_C6_date_miner_set "03/15/2024").2 "03/15/2024" rfl

/-- C9: on `"Parked 03/15/2024"`, a text with no monetary amount, the
amount scanner matches the bare digit runs of the date, so the amounts
list is non-empty and holds 3, 15 and 2024. -/
theorem claim_C9_amounts_from_date_digits :
    (parse_parking_receipts "Parked 03/15/2024").amounts = [3, 15, 2024] ∧
    (parse_parking_receipts "Parked 03/15/2024").amounts ≠ [] :=
  ⟨by decide, by decide⟩

/-! ## Claims about location extraction (C2) -/

/-- Counterexample to C2 as stated: the line `"a,lot"` qualifies (keyword
`lot`), the source produces `"a lot"` (comma replaced by a space), while
the claim's reading produces `"alot"`; the produced location is not the
line stripped of the disallowed characters. -/
theorem claim_C2_counterexample :
    isLocationCandidate "a,lot".toList = true ∧
    (parse_parking_receipts "a,lot").locations = ["a lot"] ∧
    cleanLineSpecDeletion "a,lot".toList = "alot" ∧
    ¬ (parse_parking_receipts "a,lot").locations =
        [cleanLineSpecDeletion "a,lot".toList] :=
  ⟨by decide, by decide, by decide, by decide⟩

lemma locationsFold (lines : List (List Char)) :
    ∀ acc : List String,
      lines.foldl
        (fun acc line =>
          if isLocationCandidate line then
            let c := cleanLine line
            if 3 < c.length then acc ++ [c] else acc
          else acc) acc
      = acc ++ (((lines.filter isLocationCandidate).map cleanLine).filter
          (fun c => decide (3 < c.length))) := by
  induction lines with
  | nil => simp
  | cons l t ih =>
    intro acc
    simp only [List.foldl_cons, List.filter_cons]
    by_cases hc : isLocationCandidate l
    · by_cases hlen : 3 < (cleanLine l).length
      · simp [hc, hlen, ih]
      · simp [hc, hlen, ih]
    · simp [hc, ih]

/-- C2 (amended): a line qualifies iff it contains a location keyword
case-insensitively; qualifying lines have every character outside
`[\w\s\-\.]` *replaced by a space* and are then trimmed; cleaned
candidates of length less than 4 are dropped; the first 10 survivors, in
document order, are the locations output. -/
theorem claim_C2_location_cleaning (text : String) :
    (parse_parking_receipts text).locations =
      ((((splitNl text.toList).filter isLocationCandidate).map cleanLine).filter
        (fun c => decide (3 < c.length))).take 10 := by
  show (locationsFullOf text).take 10 = _
  rw [locationsFullOf, locationsFold]
  rw [List.nil_append]

/-! ## Claims about client extraction (C7, C8) -/

lemma candidateOfLine_bounds {line : List Char} {n : String}
    (h : candidateOfLine line = some n) : 3 ≤ n.length ∧ n.length ≤ 50 := by
  unfold candidateOfLine at h
  simp_all
  obtain ⟨-, -, -, -, -, ⟨hl, hr⟩, rfl⟩ := h
  exact ⟨hl, hr⟩

lemma clientsFold_mono (lines : List (List Char)) :
    ∀ (acc : List String) (s : String), s ∈ acc →
      s ∈ lines.foldl
        (fun acc line =>
          match candidateOfLine line with
          | some n => if n ∈ acc then acc else acc ++ [n]
          | none => acc) acc := by
  induction lines with
  | nil => intro acc s h; simpa using h
  | cons l t ih =>
    intro acc s h
    simp only [List.foldl_cons]
    refine ih _ s ?_
    show s ∈ (match candidateOfLine l with
      | some n => if n ∈ acc then acc else acc ++ [n]
      | none => acc)
    cases candidateOfLine l with
    | none => exact h
    | some n =>
      show s ∈ if n ∈ acc then acc else acc ++ [n]
      by_cases hn : n ∈ acc
      · rw [if_pos hn]; exact h
      · rw [if_neg hn]; exact List.mem_append_left _ h

lemma clientsFold_adds (lines : List (List Char)) :
    ∀ (acc : List String) (line : List Char) (n : String),
      line ∈ lines → candidateOfLine line = some n →
      n ∈ lines.foldl
        (fun acc line =>
          match candidateOfLine line with
          | some n => if n ∈ acc then acc else acc ++ [n]
          | none => acc) acc := by
  induction lines with
  | nil => intro acc line n h; exact absurd h (List.not_mem_nil _)
  | cons l t ih =>
    intro acc line n hline hcand
    simp only [List.foldl_cons]
    rcases List.mem_cons.mp hline with rfl | hmem
    · apply clientsFold_mono
      show n ∈ (match candidateOfLine line with
        | some n => if n ∈ acc then acc else acc ++ [n]
        | none => acc)
      rw [hcand]
      show n ∈ if n ∈ acc then acc else acc ++ [n]
      by_cases hn : n ∈ acc
      · rw [if_pos hn]; exact hn
      · rw [if_neg hn]; exact List.mem_append_right _ (by simp)
    · exact ih _ line n hmem hcand

lemma clientsFold_invariant (lines : List (List Char)) :
    ∀ acc : List String,
      acc.Nodup → (∀ s ∈ acc, 3 ≤ s.length ∧ s.length ≤ 50) →
      (lines.foldl
        (fun acc line =>
          match candidateOfLine line with
          | some n => if n ∈ acc then acc else acc ++ [n]
          | none => acc) acc).Nodup ∧
      ∀ s ∈ lines.foldl
        (fun acc line =>
          match candidateOfLine line with
          | some n => if n ∈ acc then acc else acc ++ [n]
          | none => acc) acc, 3 ≤ s.length ∧ s.length ≤ 50 := by
  induction lines with
  | nil => intro acc h1 h2; simpa using ⟨h1, h2⟩
  | cons l t ih =>
    intro acc h1 h2
    simp only [List.foldl_cons]
    apply ih
    · show (match candidateOfLine l with
        | some n => if n ∈ acc then acc else acc ++ [n]
        | none => acc).Nodup
      cases hc : candidateOfLine l with
      | none => exact h1
      | some n =>
        show (if n ∈ acc then acc else acc ++ [n]).Nodup
        by_cases hn : n ∈ acc
        · rw [if_pos hn]; exact h1
        · rw [if_neg hn]
          exact List.nodup_append.mpr
            ⟨h1, List.nodup_singleton n, fun x hx hx' => hn (by
              have hxn : x = n := by simpa using hx'
              exact hxn ▸ hx)⟩
    · intro s hs
      revert hs
      show s ∈ (match candidateOfLine l with
        | some n => if n ∈ acc then acc else acc ++ [n]
        | none => acc) → _
      cases hc : candidateOfLine l with
      | none => exact h2 s
      | some n =>
        show s ∈ (if n ∈ acc then acc else acc ++ [n]) → _
        by_cases hn : n ∈ acc
        · rw [if_pos hn]; exact h2 s
        · rw [if_neg hn]
          intro hs
          rcases List.mem_append.mp hs with hs | hs
          · exact h2 s hs
          · have : s = n := by simpa using hs
            subst this
            exact candidateOfLine_bounds hc

/-- C7: for every text, the clients component of `parse_time_report` is
duplicate-free, sorted, at most 10 long, and every name's length lies in
`[3, 50]`. -/
theorem claim_C7_clients_invariants (text : String) :
    (parse_time_report text).clients.Nodup ∧
    List.Sorted (· ≤ ·) (parse_time_report text).clients ∧
    (parse_time_report text).clients.length ≤ 10 ∧
    ∀ s ∈ (parse_time_report text).clients, 3 ≤ s.length ∧ s.length ≤ 50 := by
  have hraw := clientsFold_invariant (splitNl text.toList) [] List.nodup_nil (by simp)
  have hperm : ((clientsRawOf text).mergeSort strLeB).Perm (clientsRawOf text) :=
    List.mergeSort_perm _ _
  have hsorted : List.Pairwise (fun a b : String => strLeB a b = true)
      ((clientsRawOf text).mergeSort strLeB) :=
    List.sorted_mergeSort
      (fun a b c h1 h2 => by
        simp only [strLeB, decide_eq_true_eq] at *
        exact le_trans h1 h2)
      (fun a b => by
        rcases le_total a b with h | h <;> simp [strLeB, h])
      (clientsRawOf text)
  have hclients : (parse_time_report text).clients =
      ((clientsRawOf text).mergeSort strLeB).take 10 := rfl
  rw [hclients]
  refine ⟨?_, ?_, ?_, ?_⟩
  · exact (List.take_sublist _ _).nodup (hperm.nodup_iff.mpr hraw.1)
  · exact List.Pairwise.sublist (List.take_sublist _ _)
      (hsorted.imp (fun h => by simpa [strLeB, decide_eq_true_eq] using h))
  · rw [List.length_take]
    omega
  · intro s hs
    exact hraw.2 s (hperm.mem_iff.mp ((List.take_sublist _ _).subset hs))

/-- C8: the line `"Total Hours: 40"` yields no client candidate (stoplist
and numeric heuristics reject every word), while `"ABC Corporation"` is
accepted as a candidate and reaches the accumulated client list of any
text containing that line. -/
theorem claim_C8_stoplist_and_acceptance :
    candidateOfLine "Total Hours: 40".toList = none ∧
    candidateOfLine "ABC Corporation".toList = some "ABC Corporation" ∧
    ∀ text : String, "ABC Corporation".toList ∈ splitNl text.toList →
      "ABC Corporation" ∈ clientsRawOf text := by
  refine ⟨by decide, by decide, fun text hmem => ?_⟩
  unfold clientsRawOf
  exact clientsFold_adds _ _ _ _ hmem (by decide)

/-- Witness for C7 at a concrete one-line text. -/
theorem claim_C7_witness :
    "Alpha Corp" ∈ (parse_time_report "Alpha Corp").clients ∧
    3 ≤ ("Alpha Corp" : String).length ∧ ("Alpha Corp" : String).length ≤ 50 := by
  have hmem : "Alpha Corp" ∈ (parse_time_report "Alpha Corp").clients := by
    show "Alpha Corp" ∈ ((clientsRawOf "Alpha Corp").mergeSort strLeB).take 10
    have hraw : clientsRawOf "Alpha Corp" = ["Alpha Corp"] := by decide
    rw [hraw, List.mergeSort_singleton]
    simp
  exact ⟨hmem, (claim_C7_clients_invariants "Alpha Corp").2.2.2 "Alpha Corp" hmem⟩

/-- Witness for C8 at a concrete two-line text. -/
theorem claim_C8_witness :
    "ABC Corporation".toList ∈ splitNl "Total Hours: 40\nABC Corporation".toList ∧
    "ABC Corporation" ∈ clientsRawOf "Total Hours: 40\nABC Corporation" :=
  ⟨by decide,
   claim_C8_stoplist_and_acceptance.2.2 "Total Hours: 40\nABC Corporation" (by decide)⟩
